import Mathlib

/-!
Verification of the AI Daily Digest news pipeline (`scripts/fetch_news.py`).

This file gives a shallow embedding of the pure core of the pipeline:
title normalization and MD5 fingerprinting, batch/historical deduplication,
the Stage-1 selection-index sanitation, the Stage-2 JSON truncation
recovery, the NewsItem assembly, the LLM retry policy, and the
post-dedup skip decision of `main`.  Theorems at the end settle the
specification's claims about these functions.

Conventions: Python strings are Lean `String`s; `bytes` are `List Nat`
(each entry < 256); Python sets of fingerprints are `List String` used
only through membership; machine integers do not occur (MD5 words are
`Nat` reduced mod 2^32 explicitly).  Character classes (`\w`, `\s`,
`str.lower`) are modelled by their ASCII behaviour, which is what the
regexes in the source rely on for the titles involved in the claims.
-/

set_option maxRecDepth 40000

/-! ### Character helpers (Python `str.lower`, `\w`, `\s` on ASCII) -/

/-- Python `\s` (whitespace) as used by `re.sub(r"\s+", " ", t)` and
`str.strip`, restricted to the ASCII whitespace characters. -/
def isSp (c : Char) : Bool :=
  c = ' ' || c = '\t' || c = '\n' || c = '\r'

/-- Python `\w` (word character): alphanumeric or underscore. -/
def isWord (c : Char) : Bool :=
  c.isAlphanum || c = '_'

/-- A character kept by `re.sub(r"[^\w\s]", "", t)`. -/
def keepChar (c : Char) : Bool :=
  isWord c || isSp c

/-- Python `str.lower` on one character (ASCII case mapping). -/
def lowerChar (c : Char) : Char :=
  if 65 ≤ c.toNat && c.toNat ≤ 90 then Char.ofNat (c.toNat + 32) else c

/-- Drop trailing whitespace (the right half of Python `str.strip`). -/
def rstripSp : List Char → List Char
  | [] => []
  | c :: cs =>
    let r := rstripSp cs
    if r = [] && isSp c then [] else c :: r

/-- Python `str.strip`: drop leading and trailing whitespace. -/
def pyStrip (l : List Char) : List Char :=
  rstripSp (l.dropWhile isSp)

/-- Python `str.strip` on a `String`. -/
def pyStripStr (s : String) : String :=
  String.mk (pyStrip s.data)

/-- `re.sub(r"\s+", " ", t)`: replace each maximal whitespace run by a
single blank. -/
def collapseWS : List Char → List Char
  | [] => []
  | [c] => if isSp c then [' '] else [c]
  | c :: d :: rest =>
    if isSp c then
      if isSp d then collapseWS (d :: rest) else ' ' :: collapseWS (d :: rest)
    else c :: collapseWS (d :: rest)

/-- All whitespace in the text is the plain blank character (the shape
`re.sub(r"\s+", " ", ...)` leaves behind). -/
def spacesBlank (l : List Char) : Bool :=
  l.all fun c => !isSp c || c = ' '

/-- No two adjacent whitespace characters (the other invariant the
whitespace collapse establishes). -/
def noTwo : List Char → Bool
  | [] => true
  | [_] => true
  | c :: d :: rest => !(isSp c && isSp d) && noTwo (d :: rest)

/-- Core of `normalize_title` on character lists: lowercase, strip,
remove non-word/non-space characters, collapse whitespace runs. -/
def normChars (l : List Char) : List Char :=
  collapseWS ((pyStrip (l.map lowerChar)).filter keepChar)

/-- `normalize_title` from `fetch_news.py`:
`t = title.lower().strip(); t = re.sub(r"[^\w\s]", "", t);
t = re.sub(r"\s+", " ", t)`. -/
def normalize_title (title : String) : String :=
  String.mk (normChars title.data)

/-! ### MD5 (RFC 1321), used by `hashlib.md5(...).hexdigest()` -/

/-- Reduce to a 32-bit word. -/
def w32 (n : Nat) : Nat := n % 4294967296

/-- 32-bit left rotation. -/
def rotl32 (x s : Nat) : Nat :=
  w32 ((x <<< s) ||| (x >>> (32 - s)))

/-- MD5 sine-derived round constants `K[0..63]`. -/
def md5K : List Nat :=
  [3614090360, 3905402710, 606105819, 3250441966, 4118548399, 1200080426,
   2821735955, 4249261313, 1770035416, 2336552879, 4294925233, 2304563134,
   1804603682, 4254626195, 2792965006, 1236535329, 4129170786, 3225465664,
   643717713, 3921069994, 3593408605, 38016083, 3634488961, 3889429448,
   568446438, 3275163606, 4107603335, 1163531501, 2850285829, 4243563512,
   1735328473, 2368359562, 4294588738, 2272392833, 1839030562, 4259657740,
   2763975236, 1272893353, 4139469664, 3200236656, 681279174, 3936430074,
   3572445317, 76029189, 3654602809, 3873151461, 530742520, 3299628645,
   4096336452, 1126891415, 2878612391, 4237533241, 1700485571, 2399980690,
   4293915773, 2240044497, 1873313359, 4264355552, 2734768916, 1309151649,
   4149444226, 3174756917, 718787259, 3951481745]

/-- MD5 per-round left-rotation amounts `s[0..63]`. -/
def md5S : List Nat :=
  [7, 12, 17, 22, 7, 12, 17, 22, 7, 12, 17, 22, 7, 12, 17, 22,
   5, 9, 14, 20, 5, 9, 14, 20, 5, 9, 14, 20, 5, 9, 14, 20,
   4, 11, 16, 23, 4, 11, 16, 23, 4, 11, 16, 23, 4, 11, 16, 23,
   6, 10, 15, 21, 6, 10, 15, 21, 6, 10, 15, 21, 6, 10, 15, 21]

/-- Bitwise complement within 32 bits. -/
def wnot (x : Nat) : Nat := 4294967295 - w32 x

/-- One MD5 round applied to state `(a, b, c, d)`, for round index `i`
and message words `m`. -/
def md5Round (m : List Nat) (st : Nat × Nat × Nat × Nat) (i : Nat) :
    Nat × Nat × Nat × Nat :=
  let (a, b, c, d) := st
  let f :=
    if i < 16 then (b &&& c) ||| ((wnot b) &&& d)
    else if i < 32 then (d &&& b) ||| ((wnot d) &&& c)
    else if i < 48 then b ^^^ c ^^^ d
    else c ^^^ (b ||| (wnot d))
  let g :=
    if i < 16 then i
    else if i < 32 then (5 * i + 1) % 16
    else if i < 48 then (3 * i + 5) % 16
    else (7 * i) % 16
  let f := w32 (f + a + md5K.getD i 0 + m.getD g 0)
  (d, w32 (b + rotl32 f (md5S.getD i 0)), b, c)

/-- Decode a 64-byte block into 16 little-endian 32-bit words. -/
def md5Words (block : List Nat) : List Nat :=
  (List.range 16).map fun j =>
    block.getD (4 * j) 0 + 256 * block.getD (4 * j + 1) 0 +
      65536 * block.getD (4 * j + 2) 0 + 16777216 * block.getD (4 * j + 3) 0

/-- MD5 compression of one 64-byte block into the running state. -/
def md5Compress (h : Nat × Nat × Nat × Nat) (block : List Nat) :
    Nat × Nat × Nat × Nat :=
  let m := md5Words block
  let (a, b, c, d) := (List.range 64).foldl (md5Round m) h
  let (h0, h1, h2, h3) := h
  (w32 (h0 + a), w32 (h1 + b), w32 (h2 + c), w32 (h3 + d))

/-- Process the message 64 bytes at a time; the fuel argument bounds the
number of blocks so that the recursion is structural (and hence reduces
inside the kernel). -/
def md5BlocksGo : Nat → Nat × Nat × Nat × Nat → List Nat → Nat × Nat × Nat × Nat
  | 0, h, _ => h
  | fuel + 1, h, l =>
    if l = [] then h
    else md5BlocksGo fuel (md5Compress h (l.take 64)) (l.drop 64)

/-- Process the padded message 64 bytes at a time. -/
def md5Blocks (h : Nat × Nat × Nat × Nat) (l : List Nat) :
    Nat × Nat × Nat × Nat :=
  md5BlocksGo (l.length / 64 + 1) h l

/-- MD5 padding: `0x80`, zeros to 56 mod 64, then the 64-bit
little-endian bit length. -/
def md5Pad (msg : List Nat) : List Nat :=
  let lenBits := 8 * msg.length
  let padLen := (55 + 64 - msg.length % 64) % 64 + 1
  msg ++ (128 :: List.replicate (padLen - 1) 0) ++
    (List.range 8).map fun j => (lenBits >>> (8 * j)) % 256

/-- Lowercase hexadecimal digit. -/
def hexDigit (n : Nat) : Char :=
  if n < 10 then Char.ofNat (48 + n) else Char.ofNat (87 + n)

/-- Two-digit lowercase hex of a byte. -/
def byteHex (b : Nat) : List Char :=
  [hexDigit (b / 16), hexDigit (b % 16)]

/-- A 32-bit word as 8 hex digits, little-endian byte order (as in an
MD5 hexdigest). -/
def wordHexLE (w : Nat) : List Char :=
  byteHex (w % 256) ++ byteHex (w / 256 % 256) ++ byteHex (w / 65536 % 256) ++
    byteHex (w / 16777216 % 256)

/-- `hashlib.md5(msg).hexdigest()` for a byte list. -/
def md5Hex (msg : List Nat) : String :=
  let (a, b, c, d) :=
    md5Blocks (1732584193, 4023233417, 2562383102, 271733878) (md5Pad msg)
  String.mk (wordHexLE a ++ wordHexLE b ++ wordHexLE c ++ wordHexLE d)

/-- UTF-8 encoding of one character (Python `str.encode()`). -/
def utf8Char (c : Char) : List Nat :=
  let n := c.toNat
  if n < 128 then [n]
  else if n < 2048 then [192 + n / 64, 128 + n % 64]
  else if n < 65536 then [224 + n / 4096, 128 + n / 64 % 64, 128 + n % 64]
  else [240 + n / 262144, 128 + n / 4096 % 64, 128 + n / 64 % 64, 128 + n % 64]

/-- `s.encode()`: UTF-8 bytes of a string. -/
def strBytes (s : String) : List Nat :=
  s.data.flatMap utf8Char

/-- First `n` characters of a string (Python slice `[:n]`). -/
def strTake (s : String) (n : Nat) : String :=
  String.mk (s.data.take n)

/-- `title_fingerprint` from `fetch_news.py`:
`hashlib.md5(normalize_title(title).encode()).hexdigest()[:12]`. -/
def title_fingerprint (title : String) : String :=
  strTake (md5Hex (strBytes (normalize_title title))) 12

/-- URL fingerprint as computed inline in `deduplicate_articles` and
`load_historical_titles`: `hashlib.md5(link.encode()).hexdigest()[:12]`. -/
def url_fingerprint (link : String) : String :=
  strTake (md5Hex (strBytes link)) 12

/-! ### Deduplication (`deduplicate_articles`) -/

/-- The fields of an article record that the deduplication and selection
stages read (`a["title"]`, `a["link"]`); the remaining dict entries of
the Python record never influence the claims' functions. -/
structure Article where
  title : String
  link : String
deriving DecidableEq, Repr

/-- The URL fingerprint guarded by link truthiness:
`hashlib.md5(a["link"].encode()).hexdigest()[:12] if a["link"] else ""`.
Python uses the empty string as the "no fingerprint" sentinel; it is
distinct from every 12-character hexdigest, so it is modelled as
`none`. -/
def linkFp (a : Article) : Option String :=
  if a.link = "" then none else some (url_fingerprint a.link)

/-- Loop of `deduplicate_articles`, with the `seen` set accumulated as a
list used only through membership. -/
def dedupGo (hist : List String) : List Article → List String → List Article
  | [], _ => []
  | a :: rest, seen =>
    let fp := title_fingerprint a.title
    if fp ∈ seen ∨ fp ∈ hist then dedupGo hist rest seen
    else
      match linkFp a with
      | some ufp =>
        if ufp ∈ seen ∨ ufp ∈ hist then dedupGo hist rest seen
        else a :: dedupGo hist rest (ufp :: fp :: seen)
      | none => a :: dedupGo hist rest (fp :: seen)

/-- `deduplicate_articles(articles, historical_fps)` from
`fetch_news.py`: drop an article whose title fingerprint, or whose
(non-empty-link) URL fingerprint, was already seen in this batch or is
in the historical set; otherwise keep it and record both
fingerprints. -/
def deduplicate_articles (articles : List Article) (hist : List String) :
    List Article :=
  dedupGo hist articles []

/-! ### Stage-1 selection sanitation (`generate_digest`, selection) -/

/-- One element of the array `json.loads` returns for the first
bracketed substring of the Stage-1 response, as far as the index
sanitation reads it.  Python distinguishes ints, finite floats (kept via
`int(i)` truncation), the non-finite floats `Infinity`/`-Infinity` and
`NaN` (both accepted by `json.loads`; `int()` raises on them), bools (a
subclass of `int`), and everything else (discarded by the `isinstance`
test).  `jfloat t` records `int(x)` of a finite float `x`, the only
datum the sanitation uses; `jinf` covers both infinities. -/
inductive JElem where
  | jint (n : Int)
  | jfloat (t : Int)
  | jinf
  | jnan
  | jbool (b : Bool)
  | jother
deriving DecidableEq, Repr

/-- The exceptions `int(i)` can raise inside the comprehension:
`ValueError` on `NaN` (caught by the surrounding
`except (json.JSONDecodeError, ValueError)`) and `OverflowError` on an
infinity (caught by nothing in `generate_digest`). -/
inductive PyExc where
  | valueError
  | overflowError
deriving DecidableEq, Repr

/-- What `isinstance(i, (int, float)) and ... int(i) ...` does with one
element: produce a value, skip the element, or raise. -/
inductive PyIntResult where
  | val (v : Int)
  | notNumeric
  | exc (e : PyExc)
deriving DecidableEq, Repr

/-- `int(i)` behaviour per element kind (bools are ints with
`int(True) = 1`; `int()` is only reached when `isinstance` passed). -/
def JElem.intCheck : JElem → PyIntResult
  | .jint n => .val n
  | .jfloat t => .val t
  | .jinf => .exc .overflowError
  | .jnan => .exc .valueError
  | .jbool b => .val (if b then 1 else 0)
  | .jother => .notNumeric

/-- Does this element pass through the comprehension without raising? -/
def JElem.intOk (e : JElem) : Bool :=
  match e.intCheck with
  | .exc _ => false
  | _ => true

/-- `[int(i) for i in selected_indices if isinstance(i, (int, float)) and
1 <= int(i) <= len(articles)]` in the exception-free case (no non-finite
float is reached); `validIndicesRun` is the exception-aware version. -/
def validIndices (elems : List JElem) (n : Nat) : List Nat :=
  elems.filterMap fun e =>
    match e.intCheck with
    | .val v => if 1 ≤ v ∧ v ≤ (n : Int) then some v.toNat else none
    | .notNumeric => none
    | .exc _ => none

/-- The comprehension with Python's exception semantics: elements are
processed left to right and the first `NaN` or infinity aborts it with
the corresponding exception. -/
def validIndicesRun (n : Nat) : List JElem → Except PyExc (List Nat)
  | [] => .ok []
  | e :: rest =>
    match e.intCheck with
    | .val v =>
      if 1 ≤ v ∧ v ≤ (n : Int) then
        match validIndicesRun n rest with
        | .ok idxs => .ok (v.toNat :: idxs)
        | .error ex => .error ex
      else validIndicesRun n rest
    | .notNumeric => validIndicesRun n rest
    | .exc ex => .error ex

/-- The default selection used when no bracketed array is found or when
`json.loads`/`int` raises: `list(range(1, min(16, len(articles) + 1)))`. -/
def defaultIndices (n : Nat) : List Nat :=
  List.range' 1 (min 15 n)

/-- The clamp after parsing: pad below 8 valid indices from the
unselected articles in original order up to 12, truncate above 12. -/
def clampIndices (sel : List Nat) (n : Nat) : List Nat :=
  if sel.length < 8 then
    sel ++ ((List.range' 1 n).filter fun i => i ∉ sel).take (12 - sel.length)
  else if sel.length > 12 then sel.take 12
  else sel

/-- Index sanitation of Stage 1 (`generate_digest`, lines 583–601), for
the paths that reach the clamp.  The outcome `none` stands for the
caught fallback cases only: no bracketed array substring, a
`json.JSONDecodeError`, or the `ValueError` that `int()` raises on a
float `NaN` — all handled by the same
`except (json.JSONDecodeError, ValueError)` and replaced by the default
indices.  The `OverflowError` that `int()` raises on an infinity is
**not** caught and never yields a selection; that crash path is
modelled by `stage1Selection`. -/
def selectIndices (outcome : Option (List JElem)) (n : Nat) : List Nat :=
  let sel := match outcome with
    | some elems => validIndices elems n
    | none => defaultIndices n
  clampIndices sel n

/-- How a Stage-1 parse outcome ends: with a selection handed to
Stage 2, or with an uncaught `OverflowError` that escapes
`generate_digest` (in `main` it hits the `except Exception` around
`generate_digest`, which logs and calls `sys.exit(1)` — no selection is
ever produced). -/
inductive Stage1Result where
  | sel (idxs : List Nat)
  | crash
deriving DecidableEq, Repr

/-- The full Stage-1 index sanitation including exception flow: `none`
(no bracketed array or `json.JSONDecodeError`) falls back to the default
indices; a parsed element list runs the comprehension, whose
`ValueError` (NaN) is caught into the same fallback while its
`OverflowError` (infinity) crashes the run. -/
def stage1Selection (outcome : Option (List JElem)) (n : Nat) : Stage1Result :=
  match outcome with
  | none => .sel (clampIndices (defaultIndices n) n)
  | some elems =>
    match validIndicesRun n elems with
    | .ok idxs => .sel (clampIndices idxs n)
    | .error .valueError => .sel (clampIndices (defaultIndices n) n)
    | .error .overflowError => .crash

/-- `[articles[i - 1] for i in selected_indices if i <= len(articles)]`. -/
def selectArticles (articles : List Article) (idxs : List Nat) : List Article :=
  idxs.filterMap fun i =>
    if i ≤ articles.length then articles.get? (i - 1) else none

/-! ### NewsItem assembly (`generate_digest`, lines 692–717) -/

/-- The key/value pairs the assembly loop reads from one parsed Stage-2
item via `item.get(...)`; a missing key is `none`.  Fields the loop
never reads (such as a model-supplied `date`) are represented by
`extraDate` to state that they cannot influence the output. -/
structure RawItem where
  id : Option String := none
  category_en : Option String := none
  category_zh : Option String := none
  category_color : Option String := none
  title_en : Option String := none
  title_zh : Option String := none
  summary_en : Option String := none
  summary_zh : Option String := none
  source : Option String := none
  sourceUrl : Option String := none
  extraDate : Option String := none
deriving DecidableEq, Repr

/-- One entry of the frontend digest, flattened. -/
structure NewsItem where
  id : String
  categoryZh : String
  categoryEn : String
  categoryColor : String
  titleZh : String
  titleEn : String
  summaryZh : String
  summaryEn : String
  source : String
  sourceUrl : String
  date : String
deriving DecidableEq, Repr

/-- The fixed category palette `CATEGORIES` (name, zh label, color). -/
def CATEGORIES : List (String × String × String) :=
  [("Models & APIs", "模型与 API", "#6366f1"),
   ("Research & Papers", "研究与论文", "#ec4899"),
   ("Engineering & Tools", "工程与工具", "#10b981"),
   ("Industry & Policy", "行业与政策", "#8b5cf6"),
   ("Community Picks", "社区精选", "#f59e0b")]

/-- The five palette names. -/
def paletteNames : List String := CATEGORIES.map (·.1)

/-- `CATEGORIES.get(cat_en, CATEGORIES["Community Picks"])`: the zh
label and color for a category name, defaulting to the Community Picks
bucket. -/
def catInfo (cat_en : String) : String × String :=
  match CATEGORIES.find? fun e => e.1 = cat_en with
  | some e => e.2
  | none => ("社区精选", "#f59e0b")

/-- The body of the assembly loop for one item, where `idx` is
`len(news_items) + 1` at that point (i.e. the 1-based position). -/
def toNewsItem (item : RawItem) (idx : Nat) (target_date : String) : NewsItem :=
  let cat_en := item.category_en.getD "Community Picks"
  let info := catInfo cat_en
  { id := item.id.getD ("news-" ++ toString idx)
    categoryZh := item.category_zh.getD info.1
    categoryEn := cat_en
    categoryColor := item.category_color.getD info.2
    titleZh := item.title_zh.getD ""
    titleEn := item.title_en.getD ""
    summaryZh := item.summary_zh.getD ""
    summaryEn := item.summary_en.getD ""
    source := item.source.getD ""
    sourceUrl := item.sourceUrl.getD ""
    date := target_date }

/-- Helper: the assembly loop with the running 1-based position. -/
def assembleGo (target_date : String) : List RawItem → Nat → List NewsItem
  | [], _ => []
  | item :: rest, idx =>
    toNewsItem item idx target_date :: assembleGo target_date rest (idx + 1)

/-- The "Convert to frontend format" loop of `generate_digest`: one
`NewsItem` per parsed item, in order. -/
def assembleNewsItems (items : List RawItem) (target_date : String) :
    List NewsItem :=
  assembleGo target_date items 1

/-- A parsed Stage-2 item whose model-emitted category is outside the
palette (nothing in `generate_digest` prevents this). -/
def itemUnknownCat : RawItem :=
  { category_en := some "Quantum Stuff", title_en := some "Same Headline",
    sourceUrl := some "https://x.test/a" }

/-- A parsed Stage-2 item without a category, repeating the headline of
`itemUnknownCat`. -/
def itemRepeatTitle : RawItem :=
  { title_en := some "Same Headline", sourceUrl := some "https://x.test/b" }

/-- A concrete Stage-2 parse result in which the model emitted an
out-of-palette category for the first item and the same headline for
both items. -/
def unknownCategoryItems : List RawItem :=
  [itemUnknownCat, itemRepeatTitle]

/-- A well-behaved parsed Stage-2 item (palette category, fresh title). -/
def itemPalette : RawItem :=
  { category_en := some "Models & APIs", title_en := some "Alpha" }

/-- A second well-behaved parsed Stage-2 item. -/
def itemPlain : RawItem :=
  { title_en := some "Beta" }

/-! ### JSON values and `json.loads` (used by the Stage-2 batch loop) -/

/-- JSON values as `json.loads` returns them, except that numeric
literals are kept as their source lexeme: the digest pipeline never
interprets Stage-2 numbers numerically, so no float semantics is
needed. -/
inductive Json where
  | null
  | bool (b : Bool)
  | num (lexeme : String)
  | str (s : String)
  | arr (elems : List Json)
  | obj (fields : List (String × Json))
deriving Repr

/-- Hexadecimal digit value, for `\u` escapes. -/
def hexVal (c : Char) : Option Nat :=
  if '0' ≤ c ∧ c ≤ '9' then some (c.toNat - 48)
  else if 'a' ≤ c ∧ c ≤ 'f' then some (c.toNat - 87)
  else if 'A' ≤ c ∧ c ≤ 'F' then some (c.toNat - 55)
  else none

/-- JSON string literal body (after the opening quote): strict mode as
in `json.loads` — raw control characters are rejected, the standard
escapes are decoded (`\uXXXX` as a single code unit; surrogate-pair
joining is not modelled, no claim involves it). -/
def parseStrGo (acc : List Char) : List Char → Option (String × List Char)
  | [] => none
  | c :: rest =>
    if c = '\"' then some (String.mk acc.reverse, rest)
    else if c = '\\' then
      match rest with
      | [] => none
      | e :: rest2 =>
        if e = '\"' then parseStrGo ('\"' :: acc) rest2
        else if e = '\\' then parseStrGo ('\\' :: acc) rest2
        else if e = '/' then parseStrGo ('/' :: acc) rest2
        else if e = 'b' then parseStrGo ('\x08' :: acc) rest2
        else if e = 'f' then parseStrGo ('\x0c' :: acc) rest2
        else if e = 'n' then parseStrGo ('\n' :: acc) rest2
        else if e = 'r' then parseStrGo ('\r' :: acc) rest2
        else if e = 't' then parseStrGo ('\t' :: acc) rest2
        else if e = 'u' then
          match rest2 with
          | h1 :: h2 :: h3 :: h4 :: rest3 =>
            match hexVal h1, hexVal h2, hexVal h3, hexVal h4 with
            | some a, some b, some c2, some d =>
              parseStrGo (Char.ofNat (4096 * a + 256 * b + 16 * c2 + d) :: acc) rest3
            | _, _, _, _ => none
          | _ => none
        else none
    else if c.toNat < 32 then none
    else parseStrGo (c :: acc) rest

/-- Fraction and exponent part of a JSON number, given the integer part
already lexed. -/
def numFracExp (intPart : List Char) (l : List Char) :
    Option (List Char × List Char) :=
  let fr : Option (List Char × List Char) :=
    match l with
    | c :: r =>
      if c = '.' then
        match r.takeWhile Char.isDigit with
        | [] => none
        | ds => some (c :: ds, r.dropWhile Char.isDigit)
      else some ([], l)
    | [] => some ([], l)
  match fr with
  | none => none
  | some (f, l2) =>
    match l2 with
    | c :: r =>
      if c = 'e' ∨ c = 'E' then
        let (sg, r2) : List Char × List Char :=
          match r with
          | s :: rr => if s = '+' ∨ s = '-' then ([s], rr) else ([], r)
          | [] => ([], r)
        match r2.takeWhile Char.isDigit with
        | [] => none
        | ds => some (intPart ++ f ++ c :: sg ++ ds, r2.dropWhile Char.isDigit)
      else some (intPart ++ f, l2)
    | [] => some (intPart ++ f, l2)

/-- Lex a JSON number literal (RFC 8259 grammar), returning its source
text. -/
def parseNumLex (l : List Char) : Option (List Char × List Char) :=
  let (sgn, l1) : List Char × List Char :=
    match l with
    | c :: r => if c = '-' then ([c], r) else ([], l)
    | [] => ([], l)
  match l1 with
  | [] => none
  | c :: rest =>
    if c = '0' then numFracExp (sgn ++ [c]) rest
    else if c.isDigit then
      numFracExp (sgn ++ c :: rest.takeWhile Char.isDigit)
        (rest.dropWhile Char.isDigit)
    else none

mutual

/-- JSON value parser (recursive descent; the fuel argument bounds the
nesting depth by the input length so the recursion is structural and
reduces inside the kernel). -/
def parseVal : Nat → List Char → Option (Json × List Char)
  | 0, _ => none
  | fuel + 1, l =>
    match l.dropWhile isSp with
    | [] => none
    | c :: rest =>
      if c = '\"' then
        match parseStrGo [] rest with
        | some (s, r) => some (.str s, r)
        | none => none
      else if c = '[' then
        match rest.dropWhile isSp with
        | ']' :: r2 => some (.arr [], r2)
        | _ =>
          match parseVal fuel rest with
          | some (v, r2) =>
            match parseArrTail fuel r2 with
            | some (vs, r3) => some (.arr (v :: vs), r3)
            | none => none
          | none => none
      else if c = '\x7b' then
        match rest.dropWhile isSp with
        | '\x7d' :: r2 => some (.obj [], r2)
        | _ =>
          match parseMember fuel rest with
          | some (kv, r2) =>
            match parseObjTail fuel r2 with
            | some (kvs, r3) => some (.obj (kv :: kvs), r3)
            | none => none
          | none => none
      else if c = 't' then
        match rest with
        | 'r' :: 'u' :: 'e' :: r => some (.bool true, r)
        | _ => none
      else if c = 'f' then
        match rest with
        | 'a' :: 'l' :: 's' :: 'e' :: r => some (.bool false, r)
        | _ => none
      else if c = 'n' then
        match rest with
        | 'u' :: 'l' :: 'l' :: r => some (.null, r)
        | _ => none
      else
        match parseNumLex (c :: rest) with
        | some (lx, r) => some (.num (String.mk lx), r)
        | none => none

/-- One `"key": value` member of a JSON object. -/
def parseMember : Nat → List Char → Option ((String × Json) × List Char)
  | 0, _ => none
  | fuel + 1, l =>
    match l.dropWhile isSp with
    | c :: rest =>
      if c = '\"' then
        match parseStrGo [] rest with
        | some (k, r2) =>
          match r2.dropWhile isSp with
          | ':' :: r3 =>
            match parseVal fuel r3 with
            | some (v, r4) => some ((k, v), r4)
            | none => none
          | _ => none
        | none => none
      else none
    | [] => none

/-- Continuation of an array after its first element: `, value`* `]`. -/
def parseArrTail : Nat → List Char → Option (List Json × List Char)
  | 0, _ => none
  | fuel + 1, l =>
    match l.dropWhile isSp with
    | ']' :: r => some ([], r)
    | ',' :: r =>
      match parseVal fuel r with
      | some (v, r2) =>
        match parseArrTail fuel r2 with
        | some (vs, r3) => some (v :: vs, r3)
        | none => none
      | none => none
    | _ => none

/-- Continuation of an object after its first member. -/
def parseObjTail : Nat → List Char → Option (List (String × Json) × List Char)
  | 0, _ => none
  | fuel + 1, l =>
    match l.dropWhile isSp with
    | '\x7d' :: r => some ([], r)
    | ',' :: r =>
      match parseMember fuel r with
      | some (kv, r2) =>
        match parseObjTail fuel r2 with
        | some (kvs, r3) => some (kv :: kvs, r3)
        | none => none
      | none => none
    | _ => none

end

/-- `json.loads` on a character list: one value, then only trailing
whitespace. -/
def jsonLoadsL (l : List Char) : Option Json :=
  match parseVal (l.length + 1) l with
  | some (v, rest) => if rest.dropWhile isSp = [] then some v else none
  | none => none

/-- `json.loads` on a string. -/
def jsonLoads (s : String) : Option Json :=
  jsonLoadsL s.data

/-! ### Stage-2 batch post-processing and truncation recovery
(`generate_digest`, lines 661–687) -/

/-- Does the text start with three backticks (a code fence)? -/
def startsWithFence (l : List Char) : Bool :=
  match l with
  | a :: b :: c :: _ => a.toNat = 96 && b.toNat = 96 && c.toNat = 96
  | _ => false

/-- `re.sub(r"^```(?:json)?\s*", "", raw)`, applied when the text starts
with a fence. -/
def dropLeadFence (l : List Char) : List Char :=
  let rest := l.drop 3
  let rest2 :=
    match rest with
    | 'j' :: 's' :: 'o' :: 'n' :: r => r
    | _ => rest
  rest2.dropWhile isSp

/-- `re.sub(r"\s*```$", "", raw)`. -/
def dropTrailFence (l : List Char) : List Char :=
  if startsWithFence l.reverse then ((l.reverse.drop 3).dropWhile isSp).reverse
  else l

/-- `raw = raw.strip()` followed by the code-fence stripping guarded by
`raw.startswith("```")`. -/
def processResponse (l : List Char) : List Char :=
  let s := pyStrip l
  if startsWithFence s then dropTrailFence (dropLeadFence s) else s

/-- `raw.rfind("}")`: index of the last closing brace, `-1` if none. -/
def lastBraceIdx : List Char → Int
  | [] => -1
  | c :: rest =>
    let r := lastBraceIdx rest
    if r ≥ 0 then r + 1 else if c = '\x7d' then 0 else -1

/-- `recovered.lstrip().startswith("[")`. -/
def lstripStartsBracket (l : List Char) : Bool :=
  match l.dropWhile isSp with
  | '[' :: _ => true
  | _ => false

/-- The repaired string attempted by the recovery:
`recovered = raw[:last_brace + 1] + "]"`, prefixed with `[` when it does
not already open an array.  Meaningful when `lastBraceIdx raw > 0`. -/
def recCandidate (raw : List Char) : List Char :=
  let rec1 := raw.take ((lastBraceIdx raw).toNat + 1) ++ [']']
  if lstripStartsBracket rec1 then rec1 else '[' :: rec1

/-- The recovery branch of the `except json.JSONDecodeError` handler:
retry `json.loads` on the repaired string, and contribute zero items if
that fails too (`batch_items = []`). -/
def recoverItems (raw : List Char) : List Json :=
  if lastBraceIdx raw > 0 then
    match jsonLoadsL (recCandidate raw) with
    | some (.arr items) => items
    | _ => []
  else []

/-- Stage-2 post-processing of one batch response: strip, unfence, parse,
and on failure attempt truncation recovery.  A parse yielding a
non-array is mapped to `[]`; in Python such a value would be iterated
element-wise by `list.extend`, a shape no claim exercises. -/
def batchItemsL (l : List Char) : List Json :=
  let raw := processResponse l
  match jsonLoadsL raw with
  | some (.arr items) => items
  | some _ => []
  | none => recoverItems raw

/-- Stage-2 post-processing of one batch response string. -/
def batchItems (s : String) : List Json :=
  batchItemsL s.data

/-! ### LLM call retry policy (`call_llm`) -/

/-- Transport-level outcome of one attempt of the `call_llm` loop:
a parsed response (whose `message.get("content")` may be missing),
an `HTTPError` with a status code, or a `URLError`/`TimeoutError`. -/
inductive LLMOutcome where
  | success (content : Option String)
  | httpError (code : Nat)
  | netError
deriving DecidableEq, Repr

/-- The failure classes `call_llm` can raise: the empty-content
`RuntimeError`, an HTTP failure, a network/timeout failure, or the
final `RuntimeError("LLM call failed after 3 attempts")` fallback. -/
inductive LLMError where
  | emptyContent
  | http (code : Nat)
  | net
  | exhausted
deriving DecidableEq, Repr

/-- The codes retried by `if e.code in (429, 500, 502, 503, 504)`. -/
def retryableCode (code : Nat) : Bool :=
  code = 429 || code = 500 || code = 502 || code = 503 || code = 504

/-- The error recorded in `last_error` for a failed attempt. -/
def outcomeErr : LLMOutcome → LLMError
  | .success _ => .emptyContent
  | .httpError code => .http code
  | .netError => .net

/-- Is an attempt outcome retried by the loop? -/
def retryableOutcome : LLMOutcome → Bool
  | .success _ => false
  | .httpError code => retryableCode code
  | .netError => true

/-- The `for attempt in range(3)` loop of `call_llm`, over the sequence
`oc` of per-attempt transport outcomes (`oc i` is what attempt `i`
observes): empty content raises at once (the `except RuntimeError:
raise` clause); retryable HTTP codes and network errors record
`last_error` and continue; other HTTP errors raise at once; an exhausted
loop raises `last_error`. -/
def callAttempts (oc : Nat → LLMOutcome) :
    Nat → Nat → Option LLMError → Except LLMError String
  | 0, _, last => .error (last.getD .exhausted)
  | fuel + 1, i, _last =>
    match oc i with
    | .success content =>
      if content.getD "" = "" then .error .emptyContent else .ok (content.getD "")
    | .httpError code =>
      if retryableCode code then callAttempts oc fuel (i + 1) (some (.http code))
      else .error (.http code)
    | .netError => callAttempts oc fuel (i + 1) (some .net)

/-- `call_llm` (retry structure only): 3 attempts starting at attempt 0
with no recorded error. -/
def call_llm (oc : Nat → LLMOutcome) : Except LLMError String :=
  callAttempts oc 3 0 none

/-! ### The post-dedup decision of `main` (lines 781–796 and step 5) -/

/-- The externally observable effects of a run from the post-dedup
check onward. -/
structure RunTrace where
  exitCode : Nat
  digestWritten : Bool
  llmPipelineInvoked : Bool
  printedSkipMarker : Bool
deriving DecidableEq, Repr

/-- `main` after deduplication: fewer than 5 surviving articles prints
`SKIP_UPDATE=true` and exits 0 before any LLM work; otherwise
`generate_digest` runs (its outcome abstracted as `digestOutcome`),
an exception or an empty item list exits 1 without writing, and a
non-empty item list writes the digest and exits 0. -/
def mainAfterDedup (aiArticles : List Article)
    (digestOutcome : Except Unit (List NewsItem)) : RunTrace :=
  if aiArticles.length < 5 then
    { exitCode := 0, digestWritten := false, llmPipelineInvoked := false,
      printedSkipMarker := true }
  else
    match digestOutcome with
    | .error _ =>
      { exitCode := 1, digestWritten := false, llmPipelineInvoked := true,
        printedSkipMarker := false }
    | .ok items =>
      if items.isEmpty then
        { exitCode := 1, digestWritten := false, llmPipelineInvoked := true,
          printedSkipMarker := false }
      else
        { exitCode := 0, digestWritten := true, llmPipelineInvoked := true,
          printedSkipMarker := false }

/-- Sanity check against a published MD5 test vector. -/
theorem md5Hex_empty_vector : md5Hex [] = "d41d8cd98f00b204e9800998ecf8427e" := by
  decide

/-- Sanity check against a second published MD5 test vector ("abc"). -/
theorem md5Hex_abc_vector :
    md5Hex [97, 98, 99] = "900150983cd24fb0d6963f7d28e17f72" := by
  decide


/-! ## Helper lemmas about the normalization pipeline -/

theorem mem_of_mem_dropWhile {p : Char → Bool} {c : Char} :
    ∀ {l : List Char}, c ∈ l.dropWhile p → c ∈ l := by
  intro l h
  induction l with
  | nil => simpa using h
  | cons a as ih =>
    rw [List.dropWhile_cons] at h
    by_cases hp : p a
    · simp only [hp, if_true] at h
      exact List.mem_cons_of_mem _ (ih h)
    · simpa [hp] using h

theorem mem_of_mem_rstripSp {c : Char} :
    ∀ {l : List Char}, c ∈ rstripSp l → c ∈ l := by
  intro l h
  induction l with
  | nil => simpa [rstripSp] using h
  | cons a as ih =>
    rw [rstripSp] at h
    by_cases hc : (decide (rstripSp as = []) && isSp a) = true
    · rw [if_pos hc] at h
      simp at h
    · rw [if_neg hc] at h
      rcases List.mem_cons.mp h with h' | h'
      · exact h' ▸ List.mem_cons_self a as
      · exact List.mem_cons_of_mem _ (ih h')

theorem mem_of_mem_pyStrip {c : Char} {l : List Char} (h : c ∈ pyStrip l) :
    c ∈ l :=
  mem_of_mem_dropWhile (mem_of_mem_rstripSp h)

theorem map_eq_self_of_mem {f : Char → Char} :
    ∀ {l : List Char}, (∀ c ∈ l, f c = c) → l.map f = l := by
  intro l h
  induction l with
  | nil => rfl
  | cons a as ih =>
    simp only [List.map_cons, h a (List.mem_cons_self a as),
      ih fun c hc => h c (List.mem_cons_of_mem _ hc)]

theorem lowerChar_idem (c : Char) : lowerChar (lowerChar c) = lowerChar c := by
  by_cases h : (65 ≤ c.toNat && c.toNat ≤ 90) = true
  · obtain ⟨h1, h2⟩ : 65 ≤ c.toNat ∧ c.toNat ≤ 90 := by simpa using h
    have h' : lowerChar c = Char.ofNat (c.toNat + 32) := by
      rw [lowerChar, if_pos h]
    rw [h']
    generalize c.toNat = n at h1 h2 ⊢
    interval_cases n <;> decide
  · have h' : lowerChar c = c := by rw [lowerChar, if_neg h]
    rw [h', h']

theorem lowerChar_blank : lowerChar ' ' = ' ' := by decide

theorem mem_collapseWS {c : Char} :
    ∀ {l : List Char}, c ∈ collapseWS l → c = ' ' ∨ c ∈ l := by
  intro l h
  induction l with
  | nil => simpa [collapseWS] using h
  | cons a as ih =>
    cases as with
    | nil =>
      by_cases ha : isSp a
      · simp [collapseWS, ha] at h
        exact Or.inl h
      · simp [collapseWS, ha] at h
        simp [h]
    | cons d rest =>
      by_cases ha : isSp a
      · by_cases hd : isSp d
        · rw [collapseWS, if_pos ha, if_pos hd] at h
          rcases ih h with h' | h'
          · exact Or.inl h'
          · exact Or.inr (List.mem_cons_of_mem _ h')
        · rw [collapseWS, if_pos ha, if_neg hd] at h
          rcases List.mem_cons.mp h with h' | h'
          · exact Or.inl h'
          · rcases ih h' with h'' | h''
            · exact Or.inl h''
            · exact Or.inr (List.mem_cons_of_mem _ h'')
      · rw [collapseWS, if_neg ha] at h
        rcases List.mem_cons.mp h with h' | h'
        · exact Or.inr (h' ▸ List.mem_cons_self a _)
        · rcases ih h' with h'' | h''
          · exact Or.inl h''
          · exact Or.inr (List.mem_cons_of_mem _ h'')

theorem collapseWS_spacesBlank :
    ∀ (l : List Char), spacesBlank (collapseWS l) = true := by
  intro l
  induction l with
  | nil => rfl
  | cons a as ih =>
    cases as with
    | nil =>
      by_cases ha : isSp a
      · simp [collapseWS, ha, spacesBlank]
      · simp [collapseWS, ha, spacesBlank]
    | cons d rest =>
      by_cases ha : isSp a
      · by_cases hd : isSp d
        · rw [collapseWS, if_pos ha, if_pos hd]
          exact ih
        · rw [collapseWS, if_pos ha, if_neg hd]
          simp only [spacesBlank, List.all_cons] at ih ⊢
          simpa using ih
      · rw [collapseWS, if_neg ha]
        simp only [spacesBlank, List.all_cons] at ih ⊢
        simp only [ih, Bool.and_true]
        simp [ha]

theorem noTwo_of_cons {a : Char} {as : List Char} (h : noTwo (a :: as) = true) :
    noTwo as = true := by
  cases as with
  | nil => rfl
  | cons d rest =>
    have h' : (isSp a = false ∨ isSp d = false) ∧ noTwo (d :: rest) = true := by
      simpa [noTwo] using h
    exact h'.2

theorem collapseWS_head_not_sp {d : Char} {rest : List Char} (hd : ¬ isSp d = true) :
    collapseWS (d :: rest) = d :: (collapseWS (d :: rest)).tail := by
  cases rest with
  | nil => rw [collapseWS, if_neg hd]; rfl
  | cons e rest' => rw [collapseWS, if_neg hd]; rfl

theorem collapseWS_noTwo : ∀ (l : List Char), noTwo (collapseWS l) = true := by
  intro l
  induction l with
  | nil => rfl
  | cons a as ih =>
    cases as with
    | nil =>
      by_cases ha : isSp a <;> simp [collapseWS, ha, noTwo]
    | cons d rest =>
      by_cases ha : isSp a
      · by_cases hd : isSp d
        · rw [collapseWS, if_pos ha, if_pos hd]
          exact ih
        · rw [collapseWS, if_pos ha, if_neg hd]
          rw [collapseWS_head_not_sp hd] at ih ⊢
          simp only [noTwo]
          simp [hd, ih]
      · rw [collapseWS, if_neg ha]
        cases hc : collapseWS (d :: rest) with
        | nil => simp [noTwo]
        | cons e tl =>
          rw [hc] at ih
          simp only [noTwo]
          simp [ha, ih]

theorem spacesBlank_of_cons {a : Char} {as : List Char}
    (h : spacesBlank (a :: as) = true) : spacesBlank as = true := by
  simp only [spacesBlank, List.all_cons, Bool.and_eq_true] at h
  exact h.2

theorem collapseWS_fix :
    ∀ {l : List Char}, spacesBlank l = true → noTwo l = true →
      collapseWS l = l := by
  intro l
  induction l with
  | nil => intro _ _; rfl
  | cons a as ih =>
    intro hsb hnt
    cases as with
    | nil =>
      by_cases ha : isSp a
      · have ha' : a = ' ' := by
          simp only [spacesBlank, List.all_cons, ha] at hsb
          simpa using hsb
        rw [collapseWS, if_pos ha, ha']
      · rw [collapseWS, if_neg ha]
    | cons d rest =>
      by_cases ha : isSp a
      · have ha' : a = ' ' := by
          simp only [spacesBlank, List.all_cons, Bool.and_eq_true, ha] at hsb
          simpa using hsb.1
        have hd : ¬ isSp d = true := by
          have h' : (isSp a = false ∨ isSp d = false) ∧ noTwo (d :: rest) = true := by
            simpa [noTwo] using hnt
          rcases h'.1 with h'' | h''
          · rw [ha] at h''; simp at h''
          · simp [h'']
        rw [collapseWS, if_pos ha, if_neg hd,
          ih (spacesBlank_of_cons hsb) (noTwo_of_cons hnt), ha']
      · rw [collapseWS, if_neg ha,
          ih (spacesBlank_of_cons hsb) (noTwo_of_cons hnt)]

theorem noTwo_dropWhile {p : Char → Bool} :
    ∀ {l : List Char}, noTwo l = true → noTwo (l.dropWhile p) = true := by
  intro l h
  induction l with
  | nil => simpa using h
  | cons a as ih =>
    rw [List.dropWhile_cons]
    by_cases hp : p a
    · simp only [hp, if_true]
      exact ih (noTwo_of_cons h)
    · simpa [hp] using h

theorem rstripSp_head {as : List Char} {e : Char} {tl : List Char}
    (h : rstripSp as = e :: tl) : ∃ Y, as = e :: Y := by
  cases as with
  | nil => simp [rstripSp] at h
  | cons b bs =>
    rw [rstripSp] at h
    by_cases hc : (decide (rstripSp bs = []) && isSp b) = true
    · rw [if_pos hc] at h
      exact absurd h (by simp)
    · rw [if_neg hc] at h
      rw [List.cons.injEq] at h
      exact ⟨bs, by rw [h.1]⟩

theorem noTwo_rstripSp :
    ∀ {l : List Char}, noTwo l = true → noTwo (rstripSp l) = true := by
  intro l h
  induction l with
  | nil => simpa [rstripSp] using h
  | cons a as ih =>
    rw [rstripSp]
    by_cases hc : (decide (rstripSp as = []) && isSp a) = true
    · rw [if_pos hc]; rfl
    · rw [if_neg hc]
      cases he : rstripSp as with
      | nil => rfl
      | cons e tl =>
        have h2 : noTwo (e :: tl) = true := he ▸ ih (noTwo_of_cons h)
        rcases rstripSp_head he with ⟨Y, hY⟩
        rw [hY] at h
        have h3 : (isSp a = false ∨ isSp e = false) ∧ noTwo (e :: Y) = true := by
          simpa [noTwo] using h
        simp only [noTwo, Bool.and_eq_true]
        constructor
        · rcases h3.1 with h' | h' <;> simp [h']
        · exact h2

theorem spacesBlank_of_sub {l m : List Char} (h : spacesBlank l = true)
    (hsub : ∀ c ∈ m, c ∈ l) : spacesBlank m = true := by
  simp only [spacesBlank, List.all_eq_true] at h ⊢
  exact fun c hc => h c (hsub c hc)

theorem normChars_spacesBlank (l : List Char) :
    spacesBlank (normChars l) = true := by
  unfold normChars
  exact collapseWS_spacesBlank _

theorem normChars_noTwo (l : List Char) : noTwo (normChars l) = true := by
  unfold normChars
  exact collapseWS_noTwo _

theorem normChars_keep (l : List Char) :
    ∀ c ∈ normChars l, keepChar c = true := by
  intro c hc
  rcases mem_collapseWS hc with h | h
  · rw [h]; decide
  · exact List.of_mem_filter h

theorem normChars_lower (l : List Char) :
    ∀ c ∈ normChars l, lowerChar c = c := by
  intro c hc
  rcases mem_collapseWS hc with h | h
  · rw [h]; exact lowerChar_blank
  · have h1 : c ∈ pyStrip (l.map lowerChar) := List.mem_of_mem_filter h
    have h2 : c ∈ l.map lowerChar := mem_of_mem_pyStrip h1
    rcases List.mem_map.mp h2 with ⟨d, _, hd⟩
    rw [← hd]
    exact lowerChar_idem d

theorem normChars_idem_strip (l : List Char) :
    normChars (normChars l) = pyStrip (normChars l) := by
  have hmap : (normChars l).map lowerChar = normChars l :=
    map_eq_self_of_mem (normChars_lower l)
  have hfil : (pyStrip (normChars l)).filter keepChar = pyStrip (normChars l) :=
    List.filter_eq_self.mpr fun c hc => normChars_keep l c (mem_of_mem_pyStrip hc)
  have hsb : spacesBlank (pyStrip (normChars l)) = true :=
    spacesBlank_of_sub (normChars_spacesBlank l) fun c hc => mem_of_mem_pyStrip hc
  have hnt : noTwo (pyStrip (normChars l)) = true := by
    rw [pyStrip]
    exact noTwo_rstripSp (noTwo_dropWhile (normChars_noTwo l))
  show collapseWS ((pyStrip ((normChars l).map lowerChar)).filter keepChar) = _
  rw [hmap, hfil]
  exact collapseWS_fix hsb hnt

/-! ## C8 — title normalization idempotence -/

/-- C8 counterexample: `normalize_title` is not idempotent.  For
`"a !"`, stripping happens before punctuation removal, so removing the
`!` exposes a trailing blank that a second application then strips:
`normalize_title "a !" = "a "` but applying it again gives `"a"`. -/
theorem normalize_title_idem_claim_false :
    normalize_title (normalize_title "a !") ≠ normalize_title "a !" := by
  decide

/-- C8 (amended): `normalize_title` is idempotent up to a final strip of
edge whitespace: for every string `t`,
`normalize_title (normalize_title t) = (normalize_title t).strip()`.
In particular it is idempotent on every title whose normalization has no
leading or trailing blank. -/
theorem normalize_title_idem_up_to_strip (t : String) :
    normalize_title (normalize_title t) = pyStripStr (normalize_title t) :=
  congrArg String.mk (normChars_idem_strip t.data)

/-! ## C1 — fingerprint casing/punctuation insensitivity -/

/-- C1 counterexample: the two spec titles do **not** collide.
`re.sub(r"[^\w\s]", "", ...)` deletes punctuation instead of replacing
it by a space, so `"GPT-5 Launches!"` normalizes to `"gpt5 launches"`
while `"gpt 5 launches"` stays `"gpt 5 launches"`, and the two MD5
fingerprints differ. -/
theorem title_fingerprint_claim_false :
    normalize_title "GPT-5 Launches!" ≠ normalize_title "gpt 5 launches" ∧
    title_fingerprint "GPT-5 Launches!" ≠ title_fingerprint "gpt 5 launches" := by
  constructor
  · decide
  · decide

/-- C1 (amended): fingerprinting is deterministic — equal normalized
titles give equal digests — and is casing/punctuation-insensitive in the
deleting sense: `"GPT-5 Launches!"` collides with `"gpt-5 launches"`
(and with any title normalizing to `"gpt5 launches"`), punctuation being
stripped outright rather than treated as a separator. -/
theorem title_fingerprint_insensitive :
    (∀ s t : String, normalize_title s = normalize_title t →
      title_fingerprint s = title_fingerprint t) ∧
    normalize_title "GPT-5 Launches!" = normalize_title "gpt-5 launches" ∧
    title_fingerprint "GPT-5 Launches!" = title_fingerprint "gpt-5 launches" := by
  refine ⟨fun s t h => ?_, by decide, by decide⟩
  unfold title_fingerprint
  rw [h]

/-- C1 witness: the congruence of `title_fingerprint` applied at a
concrete pair of titles with equal normalizations. -/
theorem title_fingerprint_insensitive_witness :
    title_fingerprint "Open Source, Wins" = title_fingerprint "open source wins" :=
  title_fingerprint_insensitive.1 _ _ (by decide)

/-! ## C2 — deduplication post-condition -/

theorem linkFp_some {a : Article} {u : String} (h : linkFp a = some u) :
    a.link ≠ "" ∧ u = url_fingerprint a.link := by
  by_cases hl : a.link = ""
  · simp [linkFp, hl] at h
  · simp only [linkFp, hl, if_neg] at h
    exact ⟨hl, (Option.some.inj (by simpa using h)).symm⟩

theorem linkFp_of_ne {a : Article} (h : a.link ≠ "") :
    linkFp a = some (url_fingerprint a.link) := by
  simp [linkFp, h]

theorem dedupGo_sublist (hist : List String) :
    ∀ (l : List Article) (seen : List String),
      List.Sublist (dedupGo hist l seen) l := by
  intro l
  induction l with
  | nil => intro _; exact List.Sublist.refl _
  | cons a rest ih =>
    intro seen
    simp only [dedupGo]
    by_cases h1 : title_fingerprint a.title ∈ seen ∨ title_fingerprint a.title ∈ hist
    · rw [if_pos h1]
      exact (ih seen).trans (List.sublist_cons_self a rest)
    · rw [if_neg h1]
      cases hu : linkFp a with
      | some ufp =>
        dsimp only
        by_cases h2 : ufp ∈ seen ∨ ufp ∈ hist
        · rw [if_pos h2]
          exact (ih seen).trans (List.sublist_cons_self a rest)
        · rw [if_neg h2]
          exact (ih _).cons₂ a
      | none =>
        dsimp only
        exact (ih _).cons₂ a

theorem dedupGo_fps (hist : List String) :
    ∀ (l : List Article) (seen : List String) (x : Article),
      x ∈ dedupGo hist l seen →
      (title_fingerprint x.title ∉ seen ∧ title_fingerprint x.title ∉ hist) ∧
      (∀ u, linkFp x = some u → u ∉ seen ∧ u ∉ hist) := by
  intro l
  induction l with
  | nil => intro seen x hx; simp [dedupGo] at hx
  | cons a rest ih =>
    intro seen x hx
    simp only [dedupGo] at hx
    by_cases h1 : title_fingerprint a.title ∈ seen ∨ title_fingerprint a.title ∈ hist
    · rw [if_pos h1] at hx
      exact ih seen x hx
    · rw [if_neg h1] at hx
      cases hu : linkFp a with
      | some ufp =>
        rw [hu] at hx
        dsimp only at hx
        by_cases h2 : ufp ∈ seen ∨ ufp ∈ hist
        · rw [if_pos h2] at hx
          exact ih seen x hx
        · rw [if_neg h2] at hx
          rcases List.mem_cons.mp hx with rfl | hx'
          · refine ⟨⟨fun hm => h1 (Or.inl hm), fun hm => h1 (Or.inr hm)⟩, ?_⟩
            intro u hu'
            rw [hu] at hu'
            have h3 : u = ufp := (Option.some.inj hu').symm
            subst h3
            exact ⟨fun hm => h2 (Or.inl hm), fun hm => h2 (Or.inr hm)⟩
          · have h'' := ih _ x hx'
            refine ⟨⟨fun hm => h''.1.1 (by simp [hm]), h''.1.2⟩, ?_⟩
            intro u hu'
            have h3 := h''.2 u hu'
            exact ⟨fun hm => h3.1 (by simp [hm]), h3.2⟩
      | none =>
        rw [hu] at hx
        dsimp only at hx
        rcases List.mem_cons.mp hx with rfl | hx'
        · refine ⟨⟨fun hm => h1 (Or.inl hm), fun hm => h1 (Or.inr hm)⟩, ?_⟩
          intro u hu'
          rw [hu'] at hu
          exact absurd hu (by simp)
        · have h'' := ih _ x hx'
          refine ⟨⟨fun hm => h''.1.1 (by simp [hm]), h''.1.2⟩, ?_⟩
          intro u hu'
          have h3 := h''.2 u hu'
          exact ⟨fun hm => h3.1 (by simp [hm]), h3.2⟩

theorem dedupGo_pairwise (hist : List String) :
    ∀ (l : List Article) (seen : List String),
      (dedupGo hist l seen).Pairwise (fun a b =>
        title_fingerprint a.title ≠ title_fingerprint b.title ∧
        (a.link ≠ "" → b.link ≠ "" →
          url_fingerprint a.link ≠ url_fingerprint b.link)) := by
  intro l
  induction l with
  | nil => intro _; simp [dedupGo]
  | cons a rest ih =>
    intro seen
    simp only [dedupGo]
    by_cases h1 : title_fingerprint a.title ∈ seen ∨ title_fingerprint a.title ∈ hist
    · rw [if_pos h1]
      exact ih seen
    · rw [if_neg h1]
      cases hu : linkFp a with
      | some ufp =>
        dsimp only
        by_cases h2 : ufp ∈ seen ∨ ufp ∈ hist
        · rw [if_pos h2]
          exact ih seen
        · rw [if_neg h2]
          refine List.Pairwise.cons ?_ (ih _)
          intro b hb
          have hf := dedupGo_fps hist rest _ b hb
          constructor
          · intro heq
            exact hf.1.1 (by rw [← heq]; simp)
          · intro hal hbl heq
            have h3 := hf.2 _ (linkFp_of_ne hbl)
            apply h3.1
            rw [← heq]
            have h4 := (linkFp_some hu).2
            simp [← h4]
      | none =>
        dsimp only
        refine List.Pairwise.cons ?_ (ih _)
        intro b hb
        have hf := dedupGo_fps hist rest _ b hb
        constructor
        · intro heq
          exact hf.1.1 (by rw [← heq]; simp)
        · intro hal hbl heq
          have h6 : linkFp a = none := hu
          rw [linkFp_of_ne hal] at h6
          exact absurd h6 (by simp)

/-- C2: `deduplicate_articles` returns a subsequence of its input (order
preserved), no two retained articles share a title fingerprint or a
(non-empty-link) URL fingerprint, and no retained article's title
fingerprint — nor URL fingerprint, when it has a link — belongs to the
supplied historical set. -/
theorem deduplicate_articles_postcondition (articles : List Article)
    (hist : List String) :
    List.Sublist (deduplicate_articles articles hist) articles ∧
    (deduplicate_articles articles hist).Pairwise (fun a b =>
      title_fingerprint a.title ≠ title_fingerprint b.title ∧
      (a.link ≠ "" → b.link ≠ "" →
        url_fingerprint a.link ≠ url_fingerprint b.link)) ∧
    ∀ a ∈ deduplicate_articles articles hist,
      title_fingerprint a.title ∉ hist ∧
      (a.link ≠ "" → url_fingerprint a.link ∉ hist) := by
  refine ⟨dedupGo_sublist hist articles [], dedupGo_pairwise hist articles [], ?_⟩
  intro a ha
  have hf := dedupGo_fps hist articles [] a ha
  exact ⟨hf.1.2, fun hl => (hf.2 _ (linkFp_of_ne hl)).2⟩

/-- C2 witness: the post-condition applied to a concrete run. -/
theorem deduplicate_articles_postcondition_witness :
    title_fingerprint "AI Model Released" ∉ ["e4e911ecb2d7"] ∧
    url_fingerprint "https://x.test/a" ∉ ["e4e911ecb2d7"] := by
  have h := deduplicate_articles_postcondition
    [⟨"AI Model Released", "https://x.test/a"⟩] ["e4e911ecb2d7"]
  have h2 := h.2.2 ⟨"AI Model Released", "https://x.test/a"⟩ (by decide)
  exact ⟨h2.1, h2.2 (by decide)⟩

/-! ## C3 / C10 — Stage-1 selection sanitation -/

theorem validIndices_bounds (elems : List JElem) (n : Nat) :
    ∀ i ∈ validIndices elems n, 1 ≤ i ∧ i ≤ n := by
  intro i hi
  simp only [validIndices, List.mem_filterMap] at hi
  rcases hi with ⟨e, _, he⟩
  cases hv : e.intCheck with
  | val v =>
    rw [hv] at he
    dsimp only at he
    by_cases hb : 1 ≤ v ∧ v ≤ (n : Int)
    · rw [if_pos hb] at he
      have h2 : v.toNat = i := Option.some.inj he
      omega
    · rw [if_neg hb] at he
      simp at he
  | notNumeric =>
    rw [hv] at he
    simp at he
  | exc ex =>
    rw [hv] at he
    simp at he

theorem length_le_filter_add :
    ∀ (l : List Nat) (sel : List Nat), l.Nodup →
      l.length ≤ (l.filter fun i => decide (i ∉ sel)).length + sel.length := by
  intro l
  induction l with
  | nil => intro sel _; simp
  | cons a as ih =>
    intro sel hl
    have has : a ∉ as := (List.nodup_cons.mp hl).1
    have hnd : as.Nodup := (List.nodup_cons.mp hl).2
    by_cases hc : a ∈ sel
    · rw [List.filter_cons_of_neg (by simp [hc])]
      have hfe : (as.filter fun i => decide (i ∉ sel)).length =
          (as.filter fun i => decide (i ∉ sel.erase a)).length := by
        congr 1
        apply List.filter_congr
        intro b hb
        have hba : b ≠ a := fun h => has (h ▸ hb)
        simp [List.mem_erase_of_ne hba]
      have h1 := ih (sel.erase a) hnd
      have h2 : (sel.erase a).length = sel.length - 1 :=
        List.length_erase_of_mem hc
      have h3 : 1 ≤ sel.length :=
        List.length_pos.mpr (List.ne_nil_of_mem hc)
      simp only [List.length_cons]
      omega
    · rw [List.filter_cons_of_pos (by simp [hc])]
      have h1 := ih sel hnd
      simp only [List.length_cons]
      omega

theorem clampIndices_sound (sel : List Nat) (n : Nat) (hn : 1 ≤ n) :
    clampIndices sel n ≠ [] ∧ (clampIndices sel n).length ≤ 12 := by
  unfold clampIndices
  by_cases h1 : sel.length < 8
  · rw [if_pos h1]
    constructor
    · apply List.ne_nil_of_length_pos
      rw [List.length_append, List.length_take]
      by_cases h2 : sel = []
      · subst h2
        have hfe : ((List.range' 1 n).filter fun i => decide (i ∉ ([] : List Nat))) =
            List.range' 1 n :=
          List.filter_eq_self.mpr fun a _ => by simp
        rw [hfe, List.length_range']
        simp only [List.length_nil]
        omega
      · have h3 : 0 < sel.length := List.length_pos.mpr h2
        omega
    · rw [List.length_append, List.length_take]
      omega
  · rw [if_neg h1]
    by_cases h2 : sel.length > 12
    · rw [if_pos h2]
      refine ⟨List.ne_nil_of_length_pos ?_, ?_⟩ <;> rw [List.length_take] <;> omega
    · rw [if_neg h2]
      exact ⟨List.ne_nil_of_length_pos (by omega), by omega⟩

/-- C3 counterexample: non-integer JSON elements are **not** all
discarded, and the selection is not always produced.  `JElem.jfloat 2`
models the float `2.7` of a response `"[2.7]"`
(`isinstance(2.7, (int, float))` holds and `int(2.7) = 2`): with 20
articles it yields the valid index list `[2]` and a padded selection
starting with article 2 — whereas discarding it (as the claim states,
and as happens for a non-numeric element) would select articles 1..12.
And for a response `"[Infinity]"` (parsed by `json.loads`), `int()`
raises an `OverflowError` that the
`except (json.JSONDecodeError, ValueError)` clause does not catch: the
run crashes and no selection exists at all, refuting "the resulting
selection is always non-empty and has at most 12 elements". -/
theorem stage1_selection_claim_false :
    validIndicesRun 20 [JElem.jfloat 2] = .ok [2] ∧
    stage1Selection (some [JElem.jfloat 2]) 20 =
      .sel [2, 1, 3, 4, 5, 6, 7, 8, 9, 10, 11, 12] ∧
    stage1Selection (some [JElem.jfloat 2]) 20 ≠
      stage1Selection (some [JElem.jother]) 20 ∧
    stage1Selection (some [JElem.jinf]) 20 = .crash := by
  refine ⟨rfl, by decide, by decide, rfl⟩

theorem validIndicesRun_ok {n : Nat} :
    ∀ {elems : List JElem} {idxs : List Nat},
      validIndicesRun n elems = .ok idxs → idxs = validIndices elems n := by
  intro elems
  induction elems with
  | nil =>
    intro idxs h
    rw [validIndicesRun] at h
    simpa [validIndices] using (Except.ok.inj h).symm
  | cons e rest ih =>
    intro idxs h
    rw [validIndicesRun] at h
    cases hv : e.intCheck with
    | val v =>
      rw [hv] at h
      dsimp only at h
      by_cases hb : 1 ≤ v ∧ v ≤ (n : Int)
      · rw [if_pos hb] at h
        cases hr : validIndicesRun n rest with
        | ok idxs' =>
          rw [hr] at h
          dsimp only at h
          rw [← Except.ok.inj h, ih hr]
          simp [validIndices, List.filterMap_cons, hv, hb]
        | error ex =>
          rw [hr] at h
          dsimp only at h
          exact absurd h (by simp)
      · rw [if_neg hb] at h
        rw [ih h]
        simp [validIndices, List.filterMap_cons, hv, hb]
    | notNumeric =>
      rw [hv] at h
      dsimp only at h
      rw [ih h]
      simp [validIndices, List.filterMap_cons, hv]
    | exc ex =>
      rw [hv] at h
      dsimp only at h
      exact absurd h (by simp)

theorem validIndicesRun_exc {n : Nat} {e0 : JElem} {ex : PyExc}
    (hex : e0.intCheck = .exc ex) :
    ∀ (pre post : List JElem), (∀ e ∈ pre, JElem.intOk e = true) →
      validIndicesRun n (pre ++ e0 :: post) = .error ex := by
  intro pre
  induction pre with
  | nil =>
    intro post _
    rw [List.nil_append, validIndicesRun, hex]
  | cons p pre' ih =>
    intro post hok
    have hp : JElem.intOk p = true := hok p (List.mem_cons_self _ _)
    have hrest : ∀ e ∈ pre', JElem.intOk e = true :=
      fun e he => hok e (List.mem_cons_of_mem _ he)
    rw [List.cons_append, validIndicesRun]
    cases hv : p.intCheck with
    | val v =>
      dsimp only
      by_cases hb : 1 ≤ v ∧ v ≤ (n : Int)
      · rw [if_pos hb, ih post hrest]
      · rw [if_neg hb]
        exact ih post hrest
    | notNumeric =>
      dsimp only
      exact ih post hrest
    | exc ex' =>
      simp [JElem.intOk, hv] at hp

theorem stage1Selection_none (n : Nat) :
    stage1Selection none n = .sel (selectIndices none n) := rfl

theorem stage1Selection_of_ok {elems : List JElem} {idxs : List Nat} {n : Nat}
    (h : validIndicesRun n elems = .ok idxs) :
    stage1Selection (some elems) n = .sel (selectIndices (some elems) n) := by
  rw [stage1Selection, h]
  dsimp only
  congr 1
  rw [validIndicesRun_ok h]
  rfl

/-- C3 (amended): Stage-1 sanitation keeps exactly the numeric elements
whose `int()` value lies in `[1, N]` — finite floats are **not**
discarded but truncated by `int()` — and discards non-numeric elements
and out-of-range values; on every path that produces a selection, the
selection is non-empty (for `N ≥ 1`) with at most 12 elements; more
than 12 valid indices are truncated to the first 12 in model order;
fewer than 8 valid indices over a pool of 20 articles are padded to
exactly 12.  The carve-outs: a float `NaN` aborts the comprehension
with a `ValueError` that is caught into the default selection, and a
float infinity (reached before any `NaN`) raises an `OverflowError`
that is not caught — the run crashes and Stage 2 is never reached. -/
theorem stage1_selection_normalized (elems : List JElem) (n : Nat)
    (hn : 1 ≤ n) :
    (∀ idxs, validIndicesRun n elems = .ok idxs →
      ∀ i ∈ idxs, 1 ≤ i ∧ i ≤ n) ∧
    (∀ (outcome : Option (List JElem)) (sel : List Nat),
      stage1Selection outcome n = .sel sel → sel ≠ [] ∧ sel.length ≤ 12) ∧
    (∀ idxs, validIndicesRun n elems = .ok idxs → idxs.length > 12 →
      stage1Selection (some elems) n = .sel (idxs.take 12)) ∧
    (n = 20 → ∀ idxs, validIndicesRun n elems = .ok idxs → idxs.length < 8 →
      stage1Selection (some elems) n = .sel (clampIndices idxs n) ∧
      (clampIndices idxs n).length = 12) ∧
    (∀ (pre post : List JElem), (∀ e ∈ pre, JElem.intOk e = true) →
      stage1Selection (some (pre ++ JElem.jinf :: post)) n = .crash) ∧
    (∀ (pre post : List JElem), (∀ e ∈ pre, JElem.intOk e = true) →
      stage1Selection (some (pre ++ JElem.jnan :: post)) n =
        .sel (clampIndices (defaultIndices n) n)) := by
  refine ⟨?_, ?_, ?_, ?_, ?_, ?_⟩
  · intro idxs h
    rw [validIndicesRun_ok h]
    exact validIndices_bounds elems n
  · intro outcome sel hsel
    cases outcome with
    | none =>
      rw [stage1Selection] at hsel
      obtain rfl := (Stage1Result.sel.inj hsel).symm
      exact clampIndices_sound _ n hn
    | some es =>
      rw [stage1Selection] at hsel
      cases hr : validIndicesRun n es with
      | ok idxs =>
        rw [hr] at hsel
        dsimp only at hsel
        obtain rfl := (Stage1Result.sel.inj hsel).symm
        exact clampIndices_sound _ n hn
      | error ex =>
        rw [hr] at hsel
        cases ex with
        | valueError =>
          dsimp only at hsel
          obtain rfl := (Stage1Result.sel.inj hsel).symm
          exact clampIndices_sound _ n hn
        | overflowError =>
          dsimp only at hsel
          exact absurd hsel (by simp)
  · intro idxs h h12
    rw [stage1Selection, h]
    dsimp only
    congr 1
    unfold clampIndices
    rw [if_neg (by omega), if_pos h12]
  · intro hn20 idxs h h8
    subst hn20
    refine ⟨by rw [stage1Selection, h], ?_⟩
    unfold clampIndices
    rw [if_pos h8, List.length_append, List.length_take]
    have hnd : (List.range' 1 20).Nodup := List.nodup_range' 1 20
    have h1 := length_le_filter_add (List.range' 1 20) idxs hnd
    rw [List.length_range'] at h1
    omega
  · intro pre post hok
    rw [stage1Selection,
      @validIndicesRun_exc n JElem.jinf PyExc.overflowError rfl pre post hok]
  · intro pre post hok
    rw [stage1Selection,
      @validIndicesRun_exc n JElem.jnan PyExc.valueError rfl pre post hok]

/-- C3 witness: the amended sanitation applied to concrete outcomes —
the response `[3]` over 20 articles is padded to 12 selected indices,
and the response `[Infinity]` crashes the run (every hypothesis
discharged by computation). -/
theorem stage1_selection_normalized_witness :
    (stage1Selection (some [JElem.jint 3]) 20 = .sel (clampIndices [3] 20) ∧
      (clampIndices [3] 20).length = 12) ∧
    stage1Selection (some [JElem.jinf]) 20 = .crash :=
  ⟨(stage1_selection_normalized [JElem.jint 3] 20 (by decide)).2.2.2.1 rfl [3]
      (by rfl) (by decide),
   (stage1_selection_normalized [JElem.jint 3] 20 (by decide)).2.2.2.2.1 [] []
      (by simp)⟩

theorem take_range'_min :
    ∀ (n m s : Nat), (List.range' s n).take m = List.range' s (min n m) := by
  intro n
  induction n with
  | zero => intro m s; simp
  | succ k ih =>
    intro m s
    cases m with
    | zero => simp
    | succ j =>
      rw [List.range'_succ, List.take_succ_cons, ih j (s + 1)]
      have hm : min (k + 1) (j + 1) = min k j + 1 := by omega
      rw [hm, List.range'_succ]

theorem selectArticles_range' :
    ∀ (l : List Article) (m : Nat), m ≤ l.length →
      selectArticles l (List.range' 1 m) = l.take m := by
  intro l m
  induction m with
  | zero => intro _; simp [selectArticles]
  | succ k ih =>
    intro hm
    rw [List.range'_concat]
    simp only [selectArticles] at ih ⊢
    rw [List.filterMap_append, ih (by omega)]
    have h1 : 1 + 1 * k = k + 1 := by omega
    rw [h1]
    simp only [List.filterMap_cons, List.filterMap_nil]
    rw [if_pos (by omega : k + 1 ≤ l.length)]
    have h2 : k + 1 - 1 = k := by omega
    rw [h2, List.get?_eq_getElem?, List.getElem?_eq_getElem (by omega : k < l.length)]
    rw [List.take_succ, List.getElem?_eq_getElem (by omega : k < l.length)]
    rfl

theorem selectIndices_none (n : Nat) :
    selectIndices none n = List.range' 1 (min 12 n) := by
  simp only [selectIndices, defaultIndices, clampIndices, List.length_range']
  by_cases h1 : min 15 n < 8
  · rw [if_pos h1]
    have hn : min 15 n = n := by omega
    simp only [hn]
    have hfe : ((List.range' 1 n).filter fun i => decide (i ∉ List.range' 1 n)) = [] :=
      List.filter_eq_nil.mpr fun a ha => by simp [ha]
    rw [hfe]
    simp only [List.take_nil, List.append_nil]
    congr 1
    omega
  · rw [if_neg h1]
    by_cases h2 : min 15 n > 12
    · rw [if_pos h2, take_range'_min]
      congr 1
      omega
    · rw [if_neg h2]
      congr 1
      omega

/-- C10: when Stage 1 finds no bracketed array or the substring fails to
parse, the default selection is `range(1, min(16, N + 1))`, i.e. the
first `min(15, N)` indices; after the clamp it is exactly the first
`min(12, N)` indices, and the selected articles are exactly the first 12
(or all, if fewer) articles of the deduped list in original order. -/
theorem stage1_default_selection (articles : List Article) :
    defaultIndices articles.length = List.range' 1 (min 15 articles.length) ∧
    selectIndices none articles.length = List.range' 1 (min 12 articles.length) ∧
    selectArticles articles (selectIndices none articles.length) =
      articles.take 12 := by
  refine ⟨rfl, selectIndices_none _, ?_⟩
  rw [selectIndices_none, selectArticles_range' articles (min 12 articles.length)
    (by omega)]
  rw [List.take_eq_take]
  omega

/-! ## C9 / C4 — NewsItem assembly -/

theorem assembleGo_mem {d : String} :
    ∀ {items : List RawItem} {idx : Nat} {x : NewsItem},
      x ∈ assembleGo d items idx → ∃ it ∈ items, ∃ k, x = toNewsItem it k d := by
  intro items
  induction items with
  | nil => intro idx x hx; simp [assembleGo] at hx
  | cons it rest ih =>
    intro idx x hx
    rw [assembleGo] at hx
    rcases List.mem_cons.mp hx with rfl | hx'
    · exact ⟨it, List.mem_cons_self _ _, idx, rfl⟩
    · rcases ih hx' with ⟨it', hm, k, hk⟩
      exact ⟨it', List.mem_cons_of_mem _ hm, k, hk⟩

theorem assembleGo_map {d : String} (f : NewsItem → String) (g : RawItem → String)
    (hfg : ∀ it k, f (toNewsItem it k d) = g it) :
    ∀ (items : List RawItem) (idx : Nat),
      (assembleGo d items idx).map f = items.map g := by
  intro items
  induction items with
  | nil => intro _; rfl
  | cons it rest ih =>
    intro idx
    rw [assembleGo]
    simp only [List.map_cons, hfg it idx, ih (idx + 1)]

/-- C9: every assembled `NewsItem` carries the run's target date; the
model's JSON cannot set or override it (no `date` key is ever read from
a parsed item). -/
theorem newsitem_date_fixed :
    ∀ (items : List RawItem) (d : String) (x : NewsItem),
      x ∈ assembleNewsItems items d → x.date = d := by
  intro items d x hx
  rcases assembleGo_mem hx with ⟨it, _, k, rfl⟩
  rfl

/-- C9 witness: the date invariant applied to a concrete item that even
carries a model-supplied `date` field. -/
theorem newsitem_date_fixed_witness :
    (toNewsItem ({ extraDate := some "1999-01-01" } : RawItem) 1 "2026-02-03").date
      = "2026-02-03" :=
  newsitem_date_fixed [{ extraDate := some "1999-01-01" }] "2026-02-03" _
    (by simp [assembleNewsItems, assembleGo])

/-- C4 counterexample: the output invariant fails on adversarial model
output.  For `unknownCategoryItems` the assembled run output contains
two `NewsItem`s with identical title fingerprints, and its first item's
`category.en` is the out-of-palette string the model emitted (only the
zh label and color fall back to the Community Picks bucket). -/
theorem assemble_output_claim_false :
    ((assembleNewsItems unknownCategoryItems "2026-01-05").map fun x => x.titleEn)
        = ["Same Headline", "Same Headline"] ∧
    ¬ ((assembleNewsItems unknownCategoryItems "2026-01-05").Pairwise fun x y =>
        title_fingerprint x.titleEn ≠ title_fingerprint y.titleEn) ∧
    ((assembleNewsItems unknownCategoryItems "2026-01-05").map fun x => x.categoryEn)
        = ["Quantum Stuff", "Community Picks"] ∧
    "Quantum Stuff" ∉ paletteNames := by
  refine ⟨rfl, ?_, rfl, by decide⟩
  intro h
  rw [show assembleNewsItems unknownCategoryItems "2026-01-05" =
    [toNewsItem itemUnknownCat 1 "2026-01-05",
     toNewsItem itemRepeatTitle 2 "2026-01-05"] from rfl,
    List.pairwise_cons] at h
  exact h.1 (toNewsItem itemRepeatTitle 2 "2026-01-05") (by simp) rfl

/-- C4 (amended): the assembly maps each parsed item to exactly one
`NewsItem` (titles and URLs verbatim, so fingerprint distinctness holds
exactly when the parsed items' titles are already distinct — no output
deduplication is performed); a missing `category_en` defaults to
`"Community Picks"`, but an unknown name is carried verbatim into
`category.en`, with only the zh label and color defaulting to the
generic bucket when absent. -/
theorem assemble_output_invariants (items : List RawItem) (d : String) :
    ((assembleNewsItems items d).map fun x => x.titleEn) =
      (items.map fun it => it.title_en.getD "") ∧
    ((assembleNewsItems items d).map fun x => x.sourceUrl) =
      (items.map fun it => it.sourceUrl.getD "") ∧
    (items.Pairwise (fun a b =>
        title_fingerprint (a.title_en.getD "") ≠
          title_fingerprint (b.title_en.getD "")) →
      (assembleNewsItems items d).Pairwise fun x y =>
        title_fingerprint x.titleEn ≠ title_fingerprint y.titleEn) ∧
    (∀ x ∈ assembleNewsItems items d,
      x.categoryEn = "Community Picks" ∨
        some x.categoryEn ∈ items.map RawItem.category_en) ∧
    (∀ x ∈ assembleNewsItems items d, ∃ it ∈ items,
      x.categoryEn = it.category_en.getD "Community Picks" ∧
      x.categoryZh =
        it.category_zh.getD (catInfo (it.category_en.getD "Community Picks")).1 ∧
      x.categoryColor =
        it.category_color.getD (catInfo (it.category_en.getD "Community Picks")).2) := by
  have hmapT : ((assembleNewsItems items d).map fun x => x.titleEn) =
      (items.map fun it => it.title_en.getD "") :=
    assembleGo_map _ _ (fun _ _ => rfl) items 1
  refine ⟨hmapT, assembleGo_map _ _ (fun _ _ => rfl) items 1, ?_, ?_, ?_⟩
  · intro hp
    have h1 : ((assembleNewsItems items d).map fun x => x.titleEn).Pairwise
        (fun u v => title_fingerprint u ≠ title_fingerprint v) := by
      rw [hmapT, List.pairwise_map]
      exact hp
    rw [List.pairwise_map] at h1
    exact h1
  · intro x hx
    rcases assembleGo_mem hx with ⟨it, hm, k, rfl⟩
    cases hc : it.category_en with
    | none =>
      left
      show it.category_en.getD "Community Picks" = _
      rw [hc]
      rfl
    | some c =>
      right
      have h2 : (toNewsItem it k d).categoryEn = c := by
        show it.category_en.getD "Community Picks" = c
        rw [hc]
        rfl
      rw [h2, ← hc]
      exact List.mem_map_of_mem _ hm
  · intro x hx
    rcases assembleGo_mem hx with ⟨it, hm, k, rfl⟩
    exact ⟨it, hm, rfl, rfl, rfl⟩

/-- C4 witness: the amended invariant applied to a concrete parsed batch
with distinct titles and an in-palette category, discharging the
pairwise hypothesis and the membership hypotheses. -/
theorem assemble_output_invariants_witness :
    ((assembleNewsItems [itemPalette, itemPlain] "2026-01-05").Pairwise fun x y =>
      title_fingerprint x.titleEn ≠ title_fingerprint y.titleEn) ∧
    ((toNewsItem itemPalette 1 "2026-01-05").categoryEn = "Community Picks" ∨
      some (toNewsItem itemPalette 1 "2026-01-05").categoryEn ∈
        [itemPalette, itemPlain].map RawItem.category_en) :=
  ⟨(assemble_output_invariants [itemPalette, itemPlain] "2026-01-05").2.2.1
      (by decide),
   (assemble_output_invariants [itemPalette, itemPlain] "2026-01-05").2.2.2.1 _
      (by simp [assembleNewsItems, assembleGo])⟩

/-! ## C5 — Stage-2 truncation recovery -/

theorem rstripSp_append :
    ∀ (l1 l2 : List Char), rstripSp (l1 ++ l2) =
      if rstripSp l2 = [] then rstripSp l1 else l1 ++ rstripSp l2 := by
  intro l1 l2
  induction l1 with
  | nil => by_cases h : rstripSp l2 = [] <;> simp [h, rstripSp]
  | cons a as ih =>
    by_cases h : rstripSp l2 = []
    · rw [if_pos h, List.cons_append, rstripSp, ih, if_pos h, rstripSp]
    · rw [if_neg h, List.cons_append, rstripSp, ih, if_neg h]
      rw [if_neg (by simp [h])]
      simp

theorem rstripSp_singleton {c : Char} (hc : isSp c = false) :
    rstripSp [c] = [c] := by
  rw [rstripSp]
  simp [hc, rstripSp]

theorem rstripSp_snoc_nonsp {g : List Char} {c : Char} (hc : isSp c = false) :
    rstripSp (g ++ [c]) = g ++ [c] := by
  rw [rstripSp_append, rstripSp_singleton hc, if_neg (by simp)]

theorem lastBraceIdx_sign : ∀ (l : List Char),
    lastBraceIdx l = -1 ∨ lastBraceIdx l ≥ 0 := by
  intro l
  induction l with
  | nil => left; rfl
  | cons a as ih =>
    rw [lastBraceIdx]
    rcases ih with h | h
    · rw [h]
      by_cases ha : a = '\x7d' <;> simp [ha]
    · rw [if_pos h]
      right
      omega

theorem lastBraceIdx_not_mem {l : List Char} (h : '\x7d' ∉ l) :
    lastBraceIdx l = -1 := by
  induction l with
  | nil => rfl
  | cons a as ih =>
    rw [lastBraceIdx, ih (fun hm => h (List.mem_cons_of_mem _ hm))]
    have ha : ¬ a = '\x7d' := fun he => h (he ▸ List.mem_cons_self a as)
    simp [ha]

theorem lastBraceIdx_append :
    ∀ (l1 l2 : List Char), lastBraceIdx (l1 ++ l2) =
      if lastBraceIdx l2 ≥ 0 then l1.length + lastBraceIdx l2
      else lastBraceIdx l1 := by
  intro l1 l2
  induction l1 with
  | nil =>
    by_cases h : lastBraceIdx l2 ≥ 0
    · rw [if_pos h]; simp
    · rw [if_neg h]
      rcases lastBraceIdx_sign l2 with h2 | h2
      · rw [List.nil_append, h2]; rfl
      · exact absurd h2 h
  | cons a as ih =>
    rw [List.cons_append, lastBraceIdx, ih]
    by_cases h : lastBraceIdx l2 ≥ 0
    · rw [if_pos h, if_pos h, if_pos (by omega : (as.length : Int) + lastBraceIdx l2 ≥ 0)]
      simp only [List.length_cons]
      push_cast
      ring
    · rw [if_neg h, if_neg h, lastBraceIdx]

theorem lastBraceIdx_snoc_brace (g : List Char) :
    lastBraceIdx (g ++ ['\x7d']) = (g.length : Int) := by
  rw [lastBraceIdx_append]
  rw [if_pos (by decide : lastBraceIdx ['\x7d'] ≥ 0)]
  rw [show lastBraceIdx ['\x7d'] = 0 from rfl]
  omega

theorem startsWithFence_bracket (rest : List Char) :
    startsWithFence ('[' :: rest) = false := by
  cases rest with
  | nil => rfl
  | cons b bs =>
    cases bs with
    | nil => rfl
    | cons c cs => rfl

theorem lstripStartsBracket_cons (rest : List Char) :
    lstripStartsBracket ('[' :: rest) = true := by
  rw [lstripStartsBracket, List.dropWhile_cons, if_neg (by decide)]
  rfl

theorem pyStrip_bracket {mid tl : List Char} (ht : rstripSp tl = tl) :
    pyStrip (('[' :: mid ++ ['\x7d']) ++ tl) = ('[' :: mid ++ ['\x7d']) ++ tl := by
  unfold pyStrip
  have hdw : List.dropWhile isSp (('[' :: mid ++ ['\x7d']) ++ tl) =
      ('[' :: mid ++ ['\x7d']) ++ tl := by
    rw [show (('[' :: mid ++ ['\x7d']) ++ tl : List Char) =
      '[' :: (mid ++ ['\x7d'] ++ tl) from by simp]
    rw [List.dropWhile_cons, if_neg (by decide)]
  rw [hdw, rstripSp_append]
  by_cases h0 : rstripSp tl = []
  · have h1 : tl = [] := by rw [← ht, h0]
    subst h1
    rw [if_pos h0, List.append_nil]
    rw [show ('[' :: mid ++ ['\x7d'] : List Char) = ('[' :: mid) ++ ['\x7d'] from rfl]
    exact rstripSp_snoc_nonsp (by decide)
  · rw [if_neg h0, ht]

theorem processResponse_bracket {mid tl : List Char} (ht : rstripSp tl = tl) :
    processResponse (('[' :: mid ++ ['\x7d']) ++ tl) =
      ('[' :: mid ++ ['\x7d']) ++ tl := by
  unfold processResponse
  rw [pyStrip_bracket ht]
  simp [startsWithFence_bracket]

/-- C5 (amended): truncation recovery is exact when the truncated tail
contains no `}` character.  If the raw batch response is a JSON array
text cut off after the closing brace of its last complete object — i.e.
it is `front ++ tail` where `front` opens with `[`, ends with the `}` of
the last complete object, and `front ++ "]"` parses as an array of those
objects — and the cut-off `tail` contains no `}` (and no trailing
whitespace), then the repaired string is exactly `front ++ "]"` and the
batch yields exactly the complete prefix objects.  And whenever the
repaired string also fails to parse (or no brace exists), the batch
contributes zero items instead of aborting. -/
theorem stage2_truncation_recovery :
    (∀ (mid : List Char) (tailStr : String) (objs : List Json) (front : String),
      front.data = '[' :: mid ++ ['\x7d'] →
      '\x7d' ∉ tailStr.data →
      rstripSp tailStr.data = tailStr.data →
      jsonLoads (front ++ tailStr) = none →
      jsonLoads (front ++ "]") = some (Json.arr objs) →
      batchItems (front ++ tailStr) = objs) ∧
    (∀ raw : String,
      jsonLoadsL (processResponse raw.data) = none →
      (lastBraceIdx (processResponse raw.data) ≤ 0 ∨
        jsonLoadsL (recCandidate (processResponse raw.data)) = none) →
      batchItems raw = []) := by
  constructor
  · intro mid tailStr objs front hf ht hts hraw hpre
    have hdata : (front ++ tailStr).data =
        ('[' :: mid ++ ['\x7d']) ++ tailStr.data := by
      rw [String.data_append, hf]
    have hdata2 : (front ++ "]").data = ('[' :: mid ++ ['\x7d']) ++ [']'] := by
      rw [String.data_append, hf]
    have hB : jsonLoadsL (('[' :: mid ++ ['\x7d']) ++ tailStr.data) = none := by
      have h := hraw
      simp only [jsonLoads] at h
      rwa [hdata] at h
    have hpre' : jsonLoadsL (('[' :: mid ++ ['\x7d']) ++ [']']) =
        some (Json.arr objs) := by
      have h := hpre
      simp only [jsonLoads] at h
      rwa [hdata2] at h
    have hlb : lastBraceIdx (('[' :: mid ++ ['\x7d']) ++ tailStr.data) =
        ((mid.length + 1 : Nat) : Int) := by
      rw [lastBraceIdx_append, lastBraceIdx_not_mem ht, if_neg (by decide)]
      rw [show ('[' :: mid ++ ['\x7d'] : List Char) = ('[' :: mid) ++ ['\x7d'] from rfl]
      rw [lastBraceIdx_snoc_brace]
      simp
    have hrc : recCandidate (('[' :: mid ++ ['\x7d']) ++ tailStr.data) =
        ('[' :: mid ++ ['\x7d']) ++ [']'] := by
      unfold recCandidate
      rw [hlb]
      have htn : (((mid.length + 1 : Nat) : Int)).toNat + 1 = mid.length + 2 := by
        simp
      rw [htn]
      have hlen : mid.length + 2 = ('[' :: mid ++ ['\x7d']).length := by simp
      rw [hlen, List.take_left]
      simp [lstripStartsBracket_cons]
    simp only [batchItems]
    rw [hdata]
    simp only [batchItemsL]
    rw [processResponse_bracket hts, hB]
    show recoverItems (('[' :: mid ++ ['\x7d']) ++ tailStr.data) = objs
    unfold recoverItems
    rw [hlb, if_pos (by omega), hrc, hpre']
  · intro raw h1 h2
    simp only [batchItems, batchItemsL]
    rw [h1]
    show recoverItems (processResponse raw.data) = []
    unfold recoverItems
    rcases h2 with h2 | h2
    · rw [if_neg (by omega)]
    · by_cases h3 : lastBraceIdx (processResponse raw.data) > 0
      · rw [if_pos h3, h2]
      · rw [if_neg h3]

/-- C5 counterexample: recovery is **not** exact for every string cut
off mid-object with well-formed prefix objects.  For the response
`[{"a": 1}, {"b": "x}` — cut inside a string literal that contains a
brace — `rfind("}")` lands inside the unterminated literal, the repaired
string `[{"a": 1}, {"b": "x}]` still fails to parse, and the batch
contributes zero items instead of the well-formed prefix object
`{"a": 1}`. -/
theorem stage2_recovery_claim_false :
    batchItems "[\x7b\"a\": 1\x7d, \x7b\"b\": \"x\x7d" = [] ∧
    jsonLoads "[\x7b\"a\": 1\x7d]" =
      some (Json.arr [Json.obj [("a", Json.num "1")]]) ∧
    ([] : List Json) ≠ [Json.obj [("a", Json.num "1")]] := by
  refine ⟨by rfl, by rfl, by simp⟩

/-- C5 witness: the amended recovery theorem applied to the concrete
truncated response `[{"a": "x"}, {"b": "y` (every hypothesis discharged
by computation). -/
theorem stage2_truncation_recovery_witness :
    batchItems ("[\x7b\"a\": \"x\"\x7d" ++ ", \x7b\"b\": \"y") =
      [Json.obj [("a", Json.str "x")]] :=
  stage2_truncation_recovery.1 ("\x7b\"a\": \"x\"").data ", \x7b\"b\": \"y"
    [Json.obj [("a", Json.str "x")]] "[\x7b\"a\": \"x\"\x7d"
    (by rfl) (by decide) (by rfl) (by rfl) (by rfl)

/-! ## C6 — LLM retry policy -/

theorem callAttempts_retry_step {oc : Nat → LLMOutcome} {fuel i : Nat}
    {last : Option LLMError} (h : retryableOutcome (oc i) = true) :
    callAttempts oc (fuel + 1) i last =
      callAttempts oc fuel (i + 1) (some (outcomeErr (oc i))) := by
  rcases ho : oc i with cnt | code | _
  · rw [ho] at h
    simp [retryableOutcome] at h
  · rw [ho] at h
    simp only [retryableOutcome] at h
    simp [callAttempts, ho, h, outcomeErr]
  · simp [callAttempts, ho, outcomeErr]

/-- C6: in `call_llm`, a transport-level success with empty or missing
content raises at once — on that very attempt, independently of any
later outcomes — as an error class distinct from the HTTP and network
classes; a non-retryable 4xx (any 4xx other than 429) likewise aborts at
once; and when all three attempts hit retryable conditions
(HTTP 429/500/502/503/504 or network/timeout), the loop runs exactly 3
attempts and then propagates the last recorded error. -/
theorem call_llm_retry_policy :
    (∀ (oc : Nat → LLMOutcome) (fuel i : Nat) (last : Option LLMError)
        (cnt : Option String), oc i = .success cnt → cnt.getD "" = "" →
      callAttempts oc (fuel + 1) i last = .error .emptyContent) ∧
    (∀ (oc : Nat → LLMOutcome) (fuel i : Nat) (last : Option LLMError)
        (code : Nat), oc i = .httpError code → 400 ≤ code → code < 500 →
        code ≠ 429 →
      callAttempts oc (fuel + 1) i last = .error (.http code)) ∧
    (∀ oc : Nat → LLMOutcome, (∀ i, i < 3 → retryableOutcome (oc i) = true) →
      call_llm oc = .error (outcomeErr (oc 2))) := by
  refine ⟨?_, ?_, ?_⟩
  · intro oc fuel i last cnt hoc hempty
    simp [callAttempts, hoc, hempty]
  · intro oc fuel i last code hoc h4a h4b h429
    have hnr : retryableCode code = false := by
      simp only [retryableCode]
      have h1 : ¬ code = 429 := h429
      have h2 : ¬ code = 500 := by omega
      have h3 : ¬ code = 502 := by omega
      have h4 : ¬ code = 503 := by omega
      have h5 : ¬ code = 504 := by omega
      simp [h1, h2, h3, h4, h5]
    simp [callAttempts, hoc, hnr]
  · intro oc h
    calc call_llm oc
        = callAttempts oc 2 1 (some (outcomeErr (oc 0))) :=
          callAttempts_retry_step (h 0 (by omega))
      _ = callAttempts oc 1 2 (some (outcomeErr (oc 1))) :=
          callAttempts_retry_step (h 1 (by omega))
      _ = callAttempts oc 0 3 (some (outcomeErr (oc 2))) :=
          callAttempts_retry_step (h 2 (by omega))
      _ = .error (outcomeErr (oc 2)) := rfl

/-- C6 witness: the retry policy applied to concrete outcome sequences —
missing content fails at once, three retryable 503s propagate the last
HTTP error, and a 404 aborts at once. -/
theorem call_llm_retry_policy_witness :
    callAttempts (fun _ => LLMOutcome.success none) 3 0 none =
      .error .emptyContent ∧
    call_llm (fun _ => LLMOutcome.httpError 503) = .error (.http 503) ∧
    callAttempts (fun _ => LLMOutcome.httpError 404) 3 0 none =
      .error (.http 404) :=
  ⟨call_llm_retry_policy.1 _ 2 0 none none rfl rfl,
   call_llm_retry_policy.2.2 _ (fun i _ => rfl),
   call_llm_retry_policy.2.1 _ 2 0 none 404 rfl (by omega) (by omega) (by omega)⟩

/-! ## C7 — skip terminal state -/

/-- C7: when fewer than 5 articles survive deduplication, the run prints
the machine-readable marker `SKIP_UPDATE=true` and exits with status 0,
writing no digest file and invoking no LLM work — whatever the digest
pipeline would have returned. -/
theorem skip_terminal_state :
    ∀ (aiArticles : List Article) (digestOutcome : Except Unit (List NewsItem)),
      aiArticles.length < 5 →
      mainAfterDedup aiArticles digestOutcome =
        { exitCode := 0, digestWritten := false, llmPipelineInvoked := false,
          printedSkipMarker := true } := by
  intro arts oc h
  unfold mainAfterDedup
  rw [if_pos h]

/-- C7 witness: the skip state for a concrete 1-article run. -/
theorem skip_terminal_state_witness :
    mainAfterDedup [⟨"t1", "u1"⟩] (.ok []) =
      { exitCode := 0, digestWritten := false, llmPipelineInvoked := false,
        printedSkipMarker := true } :=
  skip_terminal_state _ _ (by decide)
